import Mathlib

/-!
# Verification of `install_code.py`

A shallow embedding of the installation-code decoder: the input string is
normalized to its hexadecimal digits, decoded to bytes, the trailing two
bytes are checked as a CRC-16 checksum of the preceding bytes, and the
decoded digest is padded and compressed with a Matyas-Meyer-Oseas hash
over an abstract 128-bit block cipher.

Bytes are modelled as `Nat` values below 256, byte strings as `List Nat`,
and the block cipher's single-block encrypt as an abstract function
`E : List Nat → List Nat → List Nat` (it is an external dependency of the
program, imported as `rijndael`).
-/

namespace InstallCode

/-- The sixteen hexadecimal digit characters, as in `hex_chars` of the source. -/
def hexChars : List Char :=
  ['0', '1', '2', '3', '4', '5', '6', '7', '8', '9', 'A', 'B', 'C', 'D', 'E', 'F']

/-- ASCII uppercasing of a single character, mirroring `str.upper` on the
characters that can become hexadecimal digits. -/
def upChar (c : Char) : Char :=
  if 97 ≤ c.toNat ∧ c.toNat ≤ 122 then Char.ofNat (c.toNat - 32) else c

/-- The normalization loop of `decode` (source lines 28-31): uppercase the
input and keep exactly the characters belonging to `hex_chars`. -/
def normalize (s : List Char) : List Char :=
  (s.map upChar).filter (fun c => c ∈ hexChars)

/-- Numeric value of a hexadecimal digit character. -/
def hexVal (c : Char) : Nat :=
  if c = '0' then 0 else if c = '1' then 1 else if c = '2' then 2
  else if c = '3' then 3 else if c = '4' then 4 else if c = '5' then 5
  else if c = '6' then 6 else if c = '7' then 7 else if c = '8' then 8
  else if c = '9' then 9 else if c = 'A' then 10 else if c = 'B' then 11
  else if c = 'C' then 12 else if c = 'D' then 13 else if c = 'E' then 14
  else if c = 'F' then 15 else 0

/-- `binascii.a2b_hex`: decode a hex-character string into bytes, two digits
per byte, high nibble first.  Fails (`none`) on an odd number of digits or a
character that is not an upper-case hexadecimal digit. -/
def a2b_hex : List Char → Option (List Nat)
  | [] => some []
  | [_] => none
  | c1 :: c2 :: rest =>
    if c1 ∈ hexChars ∧ c2 ∈ hexChars then
      (a2b_hex rest).map (fun bs => (hexVal c1 * 16 + hexVal c2) :: bs)
    else none

/-- The literal 256-entry CRC lookup table `crc_table` of the source. -/
def crc_table : List Nat :=
[
  0, 4489, 8978, 12955, 17956, 22445, 25910, 29887, 35912, 40385, 44890, 48851, 51820, 56293, 59774, 63735,
  4225, 264, 13203, 8730, 22181, 18220, 30135, 25662, 40137, 36160, 49115, 44626, 56045, 52068, 63999, 59510,
  8450, 12427, 528, 5017, 26406, 30383, 17460, 21949, 44362, 48323, 36440, 40913, 60270, 64231, 51324, 55797,
  12675, 8202, 4753, 792, 30631, 26158, 21685, 17724, 48587, 44098, 40665, 36688, 64495, 60006, 55549, 51572,
  16900, 21389, 24854, 28831, 1056, 5545, 10034, 14011, 52812, 57285, 60766, 64727, 34920, 39393, 43898, 47859,
  21125, 17164, 29079, 24606, 5281, 1320, 14259, 9786, 57037, 53060, 64991, 60502, 39145, 35168, 48123, 43634,
  25350, 29327, 16404, 20893, 9506, 13483, 1584, 6073, 61262, 65223, 52316, 56789, 43370, 47331, 35448, 39921,
  29575, 25102, 20629, 16668, 13731, 9258, 5809, 1848, 65487, 60998, 56541, 52564, 47595, 43106, 39673, 35696,
  33800, 38273, 42778, 46739, 49708, 54181, 57662, 61623, 2112, 6601, 11090, 15067, 20068, 24557, 28022, 31999,
  38025, 34048, 47003, 42514, 53933, 49956, 61887, 57398, 6337, 2376, 15315, 10842, 24293, 20332, 32247, 27774,
  42250, 46211, 34328, 38801, 58158, 62119, 49212, 53685, 10562, 14539, 2640, 7129, 28518, 32495, 19572, 24061,
  46475, 41986, 38553, 34576, 62383, 57894, 53437, 49460, 14787, 10314, 6865, 2904, 32743, 28270, 23797, 19836,
  50700, 55173, 58654, 62615, 32808, 37281, 41786, 45747, 19012, 23501, 26966, 30943, 3168, 7657, 12146, 16123,
  54925, 50948, 62879, 58390, 37033, 33056, 46011, 41522, 23237, 19276, 31191, 26718, 7393, 3432, 16371, 11898,
  59150, 63111, 50204, 54677, 41258, 45219, 33336, 37809, 27462, 31439, 18516, 23005, 11618, 15595, 3696, 8185,
  63375, 58886, 54429, 50452, 45483, 40994, 37561, 33584, 31687, 27214, 22741, 18780, 15843, 11370, 7921, 3960]

/-- One step of the table-driven CRC loop (source line 47):
`crc = crc_table[b ^ (crc & 0xFF)] ^ (crc >> 8)`. -/
def crcStep (crc b : Nat) : Nat :=
  crc_table.getD (b ^^^ (crc &&& 0xFF)) 0 ^^^ (crc >>> 8)

/-- The running CRC register over a byte string, started at `0xFFFF`
(source lines 45-47). -/
def crcRun (bs : List Nat) : Nat :=
  bs.foldl crcStep 0xFFFF

/-- `struct.pack("<H", v)`: a 16-bit value as two bytes, low byte first. -/
def packLE16 (v : Nat) : List Nat :=
  [v % 256, v / 256 % 256]

/-- `struct.pack(">H", v)`: a 16-bit value as two bytes, high byte first. -/
def packBE16 (v : Nat) : List Nat :=
  [v / 256 % 256, v % 256]

/-- `struct.unpack(">H", bs)[0]` for a 2-byte string: big-endian 16-bit read. -/
def unpackBE16 (bs : List Nat) : Nat :=
  bs.getD 0 0 * 256 + bs.getD 1 0

/-- `calc_crc` of the source (line 48): the finished CRC, complemented and
serialized little-endian. -/
def calcCrcBytes (bs : List Nat) : List Nat :=
  packLE16 (crcRun bs ^^^ 0xFFFF)

/-- The failure classification of `decode`'s `raise` statements. -/
inductive DecodeError where
  | invalidLength : DecodeError
  | invalidHex : DecodeError
  | checksumMismatch (givenVal calcVal : Nat) : DecodeError
  deriving DecidableEq

/-- `SECURITY_BLOCK_SIZE` of the source. -/
def SECURITY_BLOCK_SIZE : Nat := 16

/-- `k = -(len(install_code) + 3) % 16` of source line 54: the number of
zero bytes inserted by the padding, computed with Python's floored modulo
(which agrees with `Int.emod` for the positive modulus 16). -/
def padZeros (n : Nat) : Nat :=
  ((-((n : Int) + 3)) % 16).toNat

/-- The padding of the decoded digest (source lines 54-55): `padZeros` zero
bytes are inserted between the `0x80` marker and the final big-endian
16-bit bit-length field `len(install_code) * 8`. -/
def paddedMessage (install_code : List Nat) : List Nat :=
  install_code ++ 0x80 :: List.replicate (padZeros install_code.length) 0
    ++ packBE16 (install_code.length * 8)

/-- `e(hash, m)` of the source (lines 61-71): single-block encrypt `m` under
key `hash` with the abstract cipher `E`, then XOR the ciphertext with `m`
byte by byte, over `len(hash)` positions. -/
def e (E : List Nat → List Nat → List Nat) (hash m : List Nat) : List Nat :=
  let aes_m := E hash m
  (List.range hash.length).map (fun i => aes_m.getD i 0 ^^^ m.getD i 0)

/-- The block-compression loop of `decode` (source lines 56-58): consume the
message sixteen bytes at a time, updating the chaining value with `e`. -/
def hashLoop (E : List Nat → List Nat → List Nat) (hash msg : List Nat) : List Nat :=
  if msg.length = 0 then hash
  else hashLoop E (e E hash (msg.take SECURITY_BLOCK_SIZE)) (msg.drop SECURITY_BLOCK_SIZE)
  termination_by msg.length
  decreasing_by simpa [SECURITY_BLOCK_SIZE] using Nat.lt_of_lt_of_le (by omega) (Nat.le_refl _)

/-- The parsing and validation part of `decode` (source lines 28-51): on
success it returns the full decoded digest `install_code`, checksum bytes
included, exactly as the variable holds it when line 53 is reached. -/
def validate (s : List Char) : Except DecodeError (List Nat) :=
  let hex_string := normalize s
  let install_length : Int := ((hex_string.length : Int) - 4) * 4
  if install_length ≠ 48 ∧ install_length ≠ 64 ∧ install_length ≠ 96 ∧ install_length ≠ 128 then
    .error .invalidLength
  else
    match a2b_hex hex_string with
    | none => .error .invalidHex
    | some install_code =>
      let given_crc := install_code.drop (install_code.length - 2)
      let calc_crc := calcCrcBytes (install_code.take (install_code.length - 2))
      if given_crc ≠ calc_crc then
        .error (.checksumMismatch (unpackBE16 given_crc) (unpackBE16 calc_crc))
      else
        .ok install_code

/-- `decode` of the source: validation followed by the padded
Matyas-Meyer-Oseas compression, starting from sixteen zero bytes. -/
def decode (E : List Nat → List Nat → List Nat) (s : List Char) :
    Except DecodeError (List Nat) :=
  match validate s with
  | .error err => .error err
  | .ok install_code =>
      .ok (hashLoop E (List.replicate SECURITY_BLOCK_SIZE 0) (paddedMessage install_code))

/-! ## Specification-side definitions

These follow the wording of the specification document, to be compared
with the definitions above that embed the source. -/

/-- The message split into successive 16-byte blocks, following the spec's
"each successive 16-byte block of Padded Message, in order". -/
def chunks16 : List Nat → List (List Nat)
  | [] => []
  | b :: rest => (b :: rest).take 16 :: chunks16 ((b :: rest).drop 16)
  termination_by msg => msg.length
  decreasing_by simp [List.length_drop]; omega

/-- The Matyas-Meyer-Oseas compression step as worded by the spec: encrypt
the block `m` under the current chaining state and XOR the ciphertext with
`m` byte-wise. -/
def mmoStep (E : List Nat → List Nat → List Nat) (state m : List Nat) : List Nat :=
  (E state m).zipWith (fun a b => a ^^^ b) m

/-- The Matyas-Meyer-Oseas hash as worded by the spec: fold `mmoStep` over
the 16-byte blocks of the message, starting from sixteen zero bytes. -/
def mmoHash (E : List Nat → List Nat → List Nat) (msg : List Nat) : List Nat :=
  (chunks16 msg).foldl (mmoStep E) (List.replicate 16 0)

/-- The padded message as worded by the disputed spec sentence: built from
the secret `decoded` (the digest without its checksum bytes), with the
bit-length field `len(decoded) * 8`. -/
def paddedMessageOfSecret (decoded : List Nat) : List Nat :=
  decoded ++ 0x80 :: List.replicate (padZeros decoded.length) 0
    ++ packBE16 (decoded.length * 8)

/-- One shift of the bit-by-bit CRC with generating polynomial `0x8408`:
shift right one bit and XOR the polynomial in when the bit shifted out
was set. -/
def crcShift1 (c : Nat) : Nat :=
  (c >>> 1) ^^^ (if c &&& 1 = 1 then 0x8408 else 0)

/-- `n` iterated shifts of the bit-by-bit CRC. -/
def crcShifts : Nat → Nat → Nat
  | 0, c => c
  | n + 1, c => crcShifts n (crcShift1 c)

/-- The bit-by-bit CRC table entry for index `i`: start from `i` and apply
eight shift steps. -/
def crcEntry (i : Nat) : Nat :=
  crcShifts 8 i

/-- One byte of the bit-by-bit CRC: XOR the byte into the register and
apply eight shift steps. -/
def crcBitStep (crc b : Nat) : Nat :=
  crcShifts 8 (crc ^^^ b)

/-- The bit-by-bit running CRC over a byte string, started at `0xFFFF`. -/
def crcRunBits (bs : List Nat) : Nat :=
  bs.foldl crcBitStep 0xFFFF

/-- Guarded version of `e`: the source's `e` indexes `aes_m[i]` and `m[i]`
for every `i < len(hash)`, so it raises `IndexError` exactly when the
cipher output or the block is shorter than the chaining value. -/
def eSafe (E : List Nat → List Nat → List Nat) (hash m : List Nat) : Option (List Nat) :=
  if m.length < hash.length ∨ (E hash m).length < hash.length then none
  else some (e E hash m)

/-- Guarded version of `hashLoop`, propagating a potential `IndexError`
of `e` as `none`. -/
def hashLoopSafe (E : List Nat → List Nat → List Nat) (hash msg : List Nat) :
    Option (List Nat) :=
  if msg.length = 0 then some hash
  else
    match eSafe E hash (msg.take SECURITY_BLOCK_SIZE) with
    | none => none
    | some h2 => hashLoopSafe E h2 (msg.drop SECURITY_BLOCK_SIZE)
  termination_by msg.length
  decreasing_by simp [SECURITY_BLOCK_SIZE, List.length_drop]; omega

/-! ## Concrete inputs used by witnesses and counterexamples -/

/-- A valid 48-bit installation code: six zero bytes followed by their
correct checksum `0x8FF7`. -/
def validCode48 : List Char :=
  ['0', '0', '0', '0', '0', '0', '0', '0', '0', '0', '0', '0', '8', 'F', 'F', '7']

/-- The decoded digest of `validCode48`, checksum bytes included. -/
def validBytes48 : List Nat :=
  [0, 0, 0, 0, 0, 0, 0x8F, 0xF7]

/-- The identity-on-the-block cipher stand-in, used only to instantiate
the abstract cipher parameter in witnesses. -/
def idCipher : List Nat → List Nat → List Nat :=
  fun _ m => m

/-! ## Basic lemmas about hex decoding -/

theorem hexVal_lt_16 {c : Char} (hc : c ∈ hexChars) : hexVal c < 16 := by
  fin_cases hc <;> decide

theorem mem_normalize_mem_hexChars {s : List Char} {c : Char}
    (hc : c ∈ normalize s) : c ∈ hexChars := by
  have h := List.mem_filter.mp hc
  exact of_decide_eq_true h.2

theorem a2b_hex_sound : ∀ (l : List Char) (bs : List Nat), a2b_hex l = some bs →
    l.length = 2 * bs.length ∧ ∀ b ∈ bs, b < 256
  | [], bs, h => by
      simp only [a2b_hex, Option.some.injEq] at h
      subst h; simp
  | [_], bs, h => by simp [a2b_hex] at h
  | c1 :: c2 :: rest, bs, h => by
      simp only [a2b_hex] at h
      split at h
      case isTrue hcs =>
        rw [Option.map_eq_some'] at h
        obtain ⟨bs0, hbs0, hcons⟩ := h
        obtain ⟨hlen, hlt⟩ := a2b_hex_sound rest bs0 hbs0
        subst hcons
        constructor
        · simp [hlen]; omega
        · intro b hb
          rcases List.mem_cons.mp hb with rfl | hb0
          · have h1 := hexVal_lt_16 hcs.1
            have h2 := hexVal_lt_16 hcs.2
            omega
          · exact hlt b hb0
      case isFalse => exact absurd h (by simp)

theorem a2b_hex_total : ∀ (l : List Char), (∀ c ∈ l, c ∈ hexChars) →
    l.length % 2 = 0 → ∃ bs, a2b_hex l = some bs
  | [], _, _ => ⟨[], rfl⟩
  | [_], _, hlen => by simp at hlen
  | c1 :: c2 :: rest, hc, hlen => by
      obtain ⟨bs, hbs⟩ := a2b_hex_total rest
        (fun c h => hc c (by simp [h]))
        (by simp only [List.length_cons] at hlen ⊢; omega)
      refine ⟨(hexVal c1 * 16 + hexVal c2) :: bs, ?_⟩
      simp [a2b_hex, hc c1 (by simp), hc c2 (by simp), hbs]

/-! ## Shape of `validate` -/

/-- The length condition that sends `decode` into its `InvalidLength`
branch (negation of the acceptance condition of source lines 35-36). -/
def badLen (s : List Char) : Prop :=
  (((normalize s).length : Int) - 4) * 4 ≠ 48 ∧ (((normalize s).length : Int) - 4) * 4 ≠ 64 ∧
  (((normalize s).length : Int) - 4) * 4 ≠ 96 ∧ (((normalize s).length : Int) - 4) * 4 ≠ 128

instance (s : List Char) : Decidable (badLen s) := by
  unfold badLen; infer_instance

theorem badLen_iff (s : List Char) :
    badLen s ↔ (normalize s).length ∉ ({16, 20, 28, 36} : Set Nat) := by
  unfold badLen
  simp only [Set.mem_insert_iff, Set.mem_singleton_iff]
  omega

theorem not_badLen_even {s : List Char} (h : ¬badLen s) :
    (normalize s).length % 2 = 0 := by
  rw [badLen_iff] at h
  simp only [Set.mem_insert_iff, Set.mem_singleton_iff, not_not] at h
  rcases h with h | h | h | h <;> omega

theorem a2b_normalize_total {s : List Char} (h : ¬badLen s) :
    ∃ bs, a2b_hex (normalize s) = some bs :=
  a2b_hex_total (normalize s) (fun _ hc => mem_normalize_mem_hexChars hc)
    (not_badLen_even h)

theorem validate_ok_iff (s : List Char) (code : List Nat) :
    validate s = .ok code ↔
      ¬badLen s ∧ a2b_hex (normalize s) = some code ∧
      code.drop (code.length - 2) = calcCrcBytes (code.take (code.length - 2)) := by
  simp only [validate]
  unfold badLen
  split
  case isTrue hbad => simp [hbad]
  case isFalse hgood =>
    cases hhex : a2b_hex (normalize s) with
    | none => simp [hgood, hhex]
    | some ic =>
      simp only [hgood, hhex, not_false_iff, true_and, Option.some.injEq]
      split
      case isTrue hne =>
        constructor
        · intro h; exact absurd h (by simp)
        · rintro ⟨rfl, hcrc⟩; exact absurd hcrc hne
      case isFalse heq =>
        rw [not_ne_iff] at heq
        constructor
        · intro h
          have : ic = code := by simpa using h
          subst this; exact ⟨rfl, heq⟩
        · rintro ⟨rfl, _⟩; rfl

theorem validate_cases (s : List Char) :
    (badLen s ∧ validate s = .error .invalidLength) ∨
    (¬badLen s ∧ ∃ code, a2b_hex (normalize s) = some code ∧
      ((code.drop (code.length - 2) = calcCrcBytes (code.take (code.length - 2)) ∧
          validate s = .ok code) ∨
       (code.drop (code.length - 2) ≠ calcCrcBytes (code.take (code.length - 2)) ∧
          validate s = .error (.checksumMismatch (unpackBE16 (code.drop (code.length - 2)))
            (unpackBE16 (calcCrcBytes (code.take (code.length - 2)))))))) := by
  by_cases hbad : badLen s
  · left
    refine ⟨hbad, ?_⟩
    unfold validate
    rw [if_pos (by exact hbad)]
  · right
    refine ⟨hbad, ?_⟩
    obtain ⟨code, hcode⟩ := a2b_normalize_total hbad
    refine ⟨code, hcode, ?_⟩
    by_cases hcrc : code.drop (code.length - 2) = calcCrcBytes (code.take (code.length - 2))
    · left
      exact ⟨hcrc, (validate_ok_iff s code).mpr ⟨hbad, hcode, hcrc⟩⟩
    · right
      refine ⟨hcrc, ?_⟩
      unfold validate
      rw [if_neg (by exact hbad)]
      rw [hcode]
      simp only []
      rw [if_pos (by exact hcrc)]

/-! ## Length bookkeeping for accepted inputs -/

theorem validate_ok_lengths {s : List Char} {code : List Nat}
    (h : validate s = .ok code) :
    (normalize s).length ∈ ({16, 20, 28, 36} : Set Nat) ∧
    code.length ∈ ({8, 10, 14, 18} : Set Nat) ∧ (∀ b ∈ code, b < 256) := by
  obtain ⟨hbad, hhex, _⟩ := (validate_ok_iff s code).mp h
  obtain ⟨hlen, hlt⟩ := a2b_hex_sound _ _ hhex
  rw [badLen_iff, not_not] at hbad
  simp only [Set.mem_insert_iff, Set.mem_singleton_iff] at hbad ⊢
  refine ⟨by omega, by omega, hlt⟩

/-! ## Padding length -/

theorem paddedMessage_length (bs : List Nat) :
    (paddedMessage bs).length = bs.length + 3 + padZeros bs.length := by
  simp [paddedMessage, packBE16]
  omega

theorem padZeros_spec (n : Nat) : (n + 3 + padZeros n) % 16 = 0 := by
  unfold padZeros
  omega

theorem paddedMessage_length_mod (bs : List Nat) :
    (paddedMessage bs).length % 16 = 0 := by
  rw [paddedMessage_length]
  exact padZeros_spec bs.length

/-! ## The compression loop as a fold over 16-byte blocks -/

theorem e_length (E : List Nat → List Nat → List Nat) (hash m : List Nat) :
    (e E hash m).length = hash.length := by
  simp [e]

theorem hashLoop_eq_foldl (E : List Nat → List Nat → List Nat) :
    ∀ (msg hash : List Nat), hashLoop E hash msg = (chunks16 msg).foldl (e E) hash
  | [], hash => by rw [hashLoop, chunks16]; simp
  | b :: rest, hash => by
      rw [hashLoop, chunks16]
      rw [if_neg (by simp)]
      simp only [List.foldl_cons, SECURITY_BLOCK_SIZE]
      exact hashLoop_eq_foldl E ((b :: rest).drop 16) (e E hash ((b :: rest).take 16))
  termination_by msg _ => msg.length
  decreasing_by simp [List.length_drop]; omega

theorem foldl_e_length (E : List Nat → List Nat → List Nat) (l : List (List Nat)) :
    ∀ hash : List Nat, (l.foldl (e E) hash).length = hash.length := by
  induction l with
  | nil => intro hash; rfl
  | cons c l ih => intro hash; rw [List.foldl_cons, ih, e_length]

theorem hashLoop_length (E : List Nat → List Nat → List Nat) (hash msg : List Nat) :
    (hashLoop E hash msg).length = hash.length := by
  rw [hashLoop_eq_foldl]
  exact foldl_e_length E _ hash

theorem chunks16_mem_length : ∀ (msg : List Nat), msg.length % 16 = 0 →
    ∀ c ∈ chunks16 msg, c.length = 16
  | [], _, c, hc => by simp [chunks16] at hc
  | b :: rest, hmod, c, hc => by
      rw [chunks16] at hc
      rcases List.mem_cons.mp hc with rfl | hc0
      · simp only [List.length_take, List.length_cons]
        simp only [List.length_cons] at hmod
        omega
      · refine chunks16_mem_length ((b :: rest).drop 16) ?_ c hc0
        simp only [List.length_drop, List.length_cons] at hmod ⊢
        omega
  termination_by msg => msg.length
  decreasing_by simp [List.length_drop]; omega

theorem e_eq_mmoStep (E : List Nat → List Nat → List Nat) {hash m : List Nat}
    (hm : m.length = hash.length) (hE : (E hash m).length = hash.length) :
    e E hash m = mmoStep E hash m := by
  apply List.ext_getElem
  · rw [e_length, mmoStep, List.length_zipWith, hm, hE]
    simp
  · intro i h1 h2
    rw [e_length] at h1
    simp only [e, mmoStep, List.getElem_map, List.getElem_range, List.getElem_zipWith]
    rw [List.getD_eq_getElem _ _ (by omega), List.getD_eq_getElem _ _ (by omega)]

theorem foldl_e_eq_mmo (E : List Nat → List Nat → List Nat)
    (hE : ∀ k m, k.length = 16 → m.length = 16 → (E k m).length = 16) :
    ∀ (l : List (List Nat)), (∀ c ∈ l, c.length = 16) →
      ∀ hash : List Nat, hash.length = 16 →
        l.foldl (e E) hash = l.foldl (mmoStep E) hash := by
  intro l
  induction l with
  | nil => intro _ hash _; rfl
  | cons c l ih =>
    intro hc hash hhash
    have hc16 : c.length = 16 := hc c (by simp)
    have hstep : e E hash c = mmoStep E hash c :=
      e_eq_mmoStep E (by omega) (by rw [hE hash c hhash hc16, hhash])
    rw [List.foldl_cons, List.foldl_cons, hstep, ih (fun x hx => hc x (by simp [hx])) _
      (by rw [← hstep, e_length, hhash])]

theorem hashLoop_eq_mmoHash (E : List Nat → List Nat → List Nat)
    (hE : ∀ k m, k.length = 16 → m.length = 16 → (E k m).length = 16)
    (msg : List Nat) (hmsg : msg.length % 16 = 0) :
    hashLoop E (List.replicate 16 0) msg = mmoHash E msg := by
  rw [hashLoop_eq_foldl, mmoHash]
  exact foldl_e_eq_mmo E hE _ (chunks16_mem_length msg hmsg) _ (by simp)

/-! ## The table-driven CRC agrees with the bit-by-bit CRC -/

theorem shiftRight_one_xor (a b : Nat) : (a ^^^ b) >>> 1 = a >>> 1 ^^^ b >>> 1 := by
  apply Nat.eq_of_testBit_eq
  intro i
  simp [Nat.testBit_shiftRight, Nat.testBit_xor]

theorem xorLeftComm (a b c : Nat) : a ^^^ (b ^^^ c) = b ^^^ (a ^^^ c) := by
  rw [← Nat.xor_assoc, Nat.xor_comm a b, Nat.xor_assoc]

theorem crcShift1_xor (a b : Nat) : crcShift1 (a ^^^ b) = crcShift1 a ^^^ crcShift1 b := by
  unfold crcShift1
  rw [shiftRight_one_xor, Nat.and_xor_distrib_right]
  have ha : a &&& 1 = 0 ∨ a &&& 1 = 1 := by rw [Nat.and_one_is_mod]; omega
  have hb : b &&& 1 = 0 ∨ b &&& 1 = 1 := by rw [Nat.and_one_is_mod]; omega
  rcases ha with ha | ha <;> rcases hb with hb | hb <;>
    simp only [ha, hb] <;> simp [Nat.xor_assoc, Nat.xor_comm, xorLeftComm]

theorem crcShifts_xor (n : Nat) : ∀ a b : Nat,
    crcShifts n (a ^^^ b) = crcShifts n a ^^^ crcShifts n b := by
  induction n with
  | zero => intro a b; rfl
  | succ n ih =>
    intro a b
    show crcShifts n (crcShift1 (a ^^^ b)) = _
    rw [crcShift1_xor, ih]
    rfl

theorem crcShift1_shiftLeft (h k : Nat) : crcShift1 (h <<< (k + 1)) = h <<< k := by
  unfold crcShift1
  have hbit : h <<< (k + 1) &&& 1 = 0 := by
    rw [Nat.and_one_is_mod, Nat.shiftLeft_eq, Nat.pow_succ, ← Nat.mul_assoc]
    exact Nat.mul_mod_left _ 2
  have hshift : h <<< (k + 1) >>> 1 = h <<< k := by
    rw [Nat.shiftLeft_eq, Nat.shiftLeft_eq, Nat.shiftRight_eq_div_pow, Nat.pow_succ,
      ← Nat.mul_assoc, Nat.pow_one, Nat.mul_div_cancel _ (by omega)]
  rw [hbit, hshift]
  simp

theorem crcShifts_shiftLeft (n : Nat) : ∀ h : Nat, crcShifts n (h <<< n) = h := by
  induction n with
  | zero => intro h; simp [crcShifts]
  | succ n ih =>
    intro h
    show crcShifts n (crcShift1 (h <<< (n + 1))) = h
    rw [crcShift1_shiftLeft, ih]

theorem low_high_decomp (a : Nat) : a = (a &&& 255) ^^^ ((a >>> 8) <<< 8) := by
  apply Nat.eq_of_testBit_eq
  intro i
  simp only [Nat.testBit_xor, Nat.testBit_and, Nat.testBit_shiftLeft, Nat.testBit_shiftRight]
  rw [show (255 : Nat) = 2 ^ 8 - 1 by norm_num, Nat.testBit_two_pow_sub_one]
  by_cases hi : i < 8
  · simp [hi, Nat.not_le.mpr hi]
  · have h8 : 8 + (i - 8) = i := by omega
    simp [hi, Nat.not_lt.mp hi, h8]

theorem crcShifts8_split (crc b : Nat) :
    crcShifts 8 (crc ^^^ b) = crcShifts 8 ((crc &&& 255) ^^^ b) ^^^ (crc >>> 8) := by
  conv_lhs => rw [low_high_decomp crc]
  rw [Nat.xor_assoc, Nat.xor_comm ((crc >>> 8) <<< 8) b, ← Nat.xor_assoc]
  rw [crcShifts_xor, crcShifts_shiftLeft]

set_option maxRecDepth 100000 in
theorem crc_table_eq_map : crc_table = (List.range 256).map crcEntry := by
  decide

theorem crc_table_getD {i : Nat} (hi : i < 256) : crc_table.getD i 0 = crcEntry i := by
  rw [crc_table_eq_map, List.getD_eq_getElem?_getD,
    List.getElem?_eq_getElem (by simpa using hi), List.getElem_map, List.getElem_range]
  rfl

theorem crcStep_eq_crcBitStep (crc : Nat) {b : Nat} (hb : b < 256) :
    crcStep crc b = crcBitStep crc b := by
  unfold crcStep crcBitStep
  have hidx : b ^^^ (crc &&& 0xFF) < 256 :=
    Nat.xor_lt_two_pow (n := 8) hb (Nat.and_lt_two_pow _ (by norm_num))
  rw [crc_table_getD hidx]
  unfold crcEntry
  rw [crcShifts8_split crc b, Nat.xor_comm b (crc &&& 0xFF)]

theorem foldl_crcStep_eq_bits : ∀ (bs : List Nat), (∀ b ∈ bs, b < 256) →
    ∀ acc : Nat, bs.foldl crcStep acc = bs.foldl crcBitStep acc := by
  intro bs
  induction bs with
  | nil => intro _ _; rfl
  | cons b bs ih =>
    intro hlt acc
    rw [List.foldl_cons, List.foldl_cons, crcStep_eq_crcBitStep acc (hlt b (by simp)),
      ih (fun x hx => hlt x (by simp [hx]))]

theorem crcRun_eq_crcRunBits (bs : List Nat) (h : ∀ b ∈ bs, b < 256) :
    crcRun bs = crcRunBits bs :=
  foldl_crcStep_eq_bits bs h 0xFFFF

/-! ## The guarded hash loop never fails on full blocks -/

theorem hashLoopSafe_eq_hashLoop (E : List Nat → List Nat → List Nat)
    (hE : ∀ k m, k.length = 16 → m.length = 16 → (E k m).length = 16) :
    ∀ (msg hash : List Nat), hash.length = 16 → msg.length % 16 = 0 →
      hashLoopSafe E hash msg = some (hashLoop E hash msg)
  | [], hash, _, _ => by rw [hashLoopSafe, hashLoop]; simp
  | b :: rest, hash, hhash, hmod => by
      have hlen : 16 ≤ (b :: rest).length := by
        simp only [List.length_cons] at hmod ⊢
        omega
      have htake : ((b :: rest).take 16).length = 16 := by
        simp only [List.length_take]
        omega
      have hsafe : eSafe E hash ((b :: rest).take 16) = some (e E hash ((b :: rest).take 16)) := by
        rw [eSafe, if_neg]
        push_neg
        constructor
        · omega
        · rw [hE hash _ hhash htake, hhash]
      rw [hashLoopSafe, hashLoop, if_neg (by simp)]
      simp only [SECURITY_BLOCK_SIZE, hsafe]
      refine hashLoopSafe_eq_hashLoop E hE ((b :: rest).drop 16) _ ?_ ?_
      · rw [e_length, hhash]
      · simp only [List.length_drop, List.length_cons] at hmod ⊢
        omega
  termination_by msg _ => msg.length
  decreasing_by simp [List.length_drop]; omega

/-! ## Bridges between `decode` and `validate` -/

theorem decode_ok_of_validate {s : List Char} {code : List Nat}
    (E : List Nat → List Nat → List Nat) (h : validate s = .ok code) :
    decode E s = .ok (hashLoop E (List.replicate 16 0) (paddedMessage code)) := by
  unfold decode
  rw [h]
  rfl

theorem decode_error_iff (E : List Nat → List Nat → List Nat) (s : List Char)
    (err : DecodeError) : decode E s = .error err ↔ validate s = .error err := by
  unfold decode
  cases h : validate s <;> simp

theorem badLen_iff_not_mem (s : List Char) :
    badLen s ↔ (((normalize s).length : Int) - 4) * 4 ∉ ({48, 64, 96, 128} : Set Int) := by
  unfold badLen
  simp only [Set.mem_insert_iff, Set.mem_singleton_iff]
  tauto

/-! ## The claims -/

/-- C1, counterexample: on the accepted installation code `validCode48`,
the message padded and hashed by `decode` is built from the full decoded
digest, not from the Decoded Bytes with the two trailing checksum bytes
removed, so the claim as stated is false. -/
theorem claim1_counterexample :
    validate validCode48 = .ok validBytes48 ∧
    paddedMessage validBytes48 ≠
      paddedMessageOfSecret (validBytes48.take (validBytes48.length - 2)) :=
  ⟨rfl, by decide⟩

/-- C1 (amended): for every installation code accepted by the validator,
the padded message that is compressed by the hash stage is built from the
Decoded Bytes with the two trailing checksum bytes still included: the
`0x80` byte is appended after the checksum bytes, then zero bytes, then a
2-byte big-endian field equal to 8 times (length of Decoded Bytes + 2),
i.e. 64, 80, 112 or 144; the checksum bytes are part of the hashed
message. -/
theorem claim1_amended_padding (E : List Nat → List Nat → List Nat)
    (s : List Char) (code : List Nat) (h : validate s = .ok code) :
    decode E s = .ok (hashLoop E (List.replicate 16 0) (paddedMessage code)) ∧
    paddedMessage code =
      (code.take (code.length - 2) ++ code.drop (code.length - 2)) ++
        0x80 :: List.replicate (padZeros code.length) 0 ++
        packBE16 (((code.take (code.length - 2)).length + 2) * 8) ∧
    ((code.take (code.length - 2)).length + 2) * 8 ∈ ({64, 80, 112, 144} : Set Nat) := by
  obtain ⟨-, hcl, -⟩ := validate_ok_lengths h
  simp only [Set.mem_insert_iff, Set.mem_singleton_iff] at hcl
  have h2 : 2 ≤ code.length := by omega
  have htl : (code.take (code.length - 2)).length = code.length - 2 := by
    simp [List.length_take]
  refine ⟨decode_ok_of_validate E h, ?_, ?_⟩
  · rw [htl, List.take_append_drop]
    have : code.length - 2 + 2 = code.length := by omega
    rw [this, paddedMessage]
  · rw [htl]
    simp only [Set.mem_insert_iff, Set.mem_singleton_iff]
    omega

/-- C2: the byte string that is padded and block-compressed is the full
decoded hex digest including the two trailing checksum bytes: the `0x80`
byte is appended after the checksum bytes, the 2-byte big-endian length
field equals 8 times (secret length + 2), and the returned link key is the
hash of secret-plus-checksum. -/
theorem claim2_full_digest_hashed (E : List Nat → List Nat → List Nat)
    (s : List Char) (code : List Nat) (h : validate s = .ok code) :
    ∃ secret chk : List Nat, code = secret ++ chk ∧ chk.length = 2 ∧
      secret.length ∈ ({6, 8, 12, 16} : Set Nat) ∧
      decode E s = .ok (hashLoop E (List.replicate 16 0)
        (secret ++ chk ++ 0x80 :: List.replicate (padZeros (secret.length + 2)) 0 ++
          packBE16 ((secret.length + 2) * 8))) := by
  obtain ⟨-, hcl, -⟩ := validate_ok_lengths h
  simp only [Set.mem_insert_iff, Set.mem_singleton_iff] at hcl
  have h2 : 2 ≤ code.length := by omega
  refine ⟨code.take (code.length - 2), code.drop (code.length - 2),
    (List.take_append_drop _ _).symm, ?_, ?_, ?_⟩
  · simp [List.length_drop]
    omega
  · simp only [List.length_take, Set.mem_insert_iff, Set.mem_singleton_iff]
    omega
  · have htl : (code.take (code.length - 2)).length = code.length - 2 := by
      simp [List.length_take]
    have hlen2 : (code.take (code.length - 2)).length + 2 = code.length := by
      rw [htl]; omega
    have hsplit : code.take (code.length - 2) ++ code.drop (code.length - 2) = code :=
      List.take_append_drop _ _
    rw [hlen2, hsplit]
    have hd := decode_ok_of_validate E h
    rw [paddedMessage] at hd
    exact hd

/-- C3: for every input that passes the length check, the checksum
verification computes a table-driven CRC-16 over the Decoded Bytes only
(all decoded bytes except the last two), starting from `0xFFFF`, updating
per byte as `crc = table[byte XOR (crc AND 0xFF)] XOR (crc >> 8)`,
finishing with `XOR 0xFFFF`, serializing the result as two bytes little
endian, and comparing byte-wise against the last two decoded bytes; the
validation fails with a checksum-mismatch error exactly when they
differ. -/
theorem claim3_checksum_rule (s : List Char) (code : List Nat)
    (hhex : a2b_hex (normalize s) = some code) (hgood : ¬badLen s) :
    calcCrcBytes (code.take (code.length - 2)) =
      packLE16 ((code.take (code.length - 2)).foldl
        (fun crc b => crc_table.getD (b ^^^ (crc &&& 0xFF)) 0 ^^^ (crc >>> 8))
        0xFFFF ^^^ 0xFFFF) ∧
    ((∃ g c, validate s = .error (.checksumMismatch g c)) ↔
      code.drop (code.length - 2) ≠ calcCrcBytes (code.take (code.length - 2))) ∧
    (code.drop (code.length - 2) = calcCrcBytes (code.take (code.length - 2)) →
      validate s = .ok code) := by
  refine ⟨rfl, ?_, fun hcrc => (validate_ok_iff s code).mpr ⟨hgood, hhex, hcrc⟩⟩
  rcases validate_cases s with ⟨hbad, -⟩ | ⟨-, code2, hcode2, hcase⟩
  · exact absurd hbad hgood
  · have hc2 : code2 = code := by
      rw [hhex] at hcode2
      exact (Option.some.inj hcode2).symm
    subst hc2
    rcases hcase with ⟨heq, hok⟩ | ⟨hne, herr⟩
    · constructor
      · rintro ⟨g, c, habs⟩
        rw [hok] at habs
        simp at habs
      · intro hne
        exact absurd heq hne
    · exact ⟨fun _ => hne, fun _ => ⟨_, _, herr⟩⟩

/-- C4: the hash stage implements the Matyas-Meyer-Oseas construction:
starting from sixteen zero bytes, each successive 16-byte block `m` of the
padded message updates the chaining state to `E(state, m) XOR m`, and the
state after the last block is the returned link key (assuming the cipher
returns 16-byte blocks on 16-byte inputs). -/
theorem claim4_mmo_construction (E : List Nat → List Nat → List Nat)
    (hE : ∀ k m, k.length = 16 → m.length = 16 → (E k m).length = 16)
    (s : List Char) (code : List Nat) (h : validate s = .ok code) :
    decode E s = .ok (mmoHash E (paddedMessage code)) := by
  rw [decode_ok_of_validate E h,
    hashLoop_eq_mmoHash E hE _ (paddedMessage_length_mod code)]

/-- C5: for every input string and any cipher, `decode` fails with the
invalid-length error if and only if (number of surviving hex digits - 4)
* 4, computed with signed arithmetic, is not one of 48, 64, 96 or 128;
in particular the empty string falls under this error. -/
theorem claim5_invalid_length_iff (E : List Nat → List Nat → List Nat) (s : List Char) :
    decode E s = .error .invalidLength ↔
      (((normalize s).length : Int) - 4) * 4 ∉ ({48, 64, 96, 128} : Set Int) := by
  rw [decode_error_iff, ← badLen_iff_not_mem]
  constructor
  · intro h
    rcases validate_cases s with ⟨hbad, -⟩ | ⟨-, code, -, hcase⟩
    · exact hbad
    · rcases hcase with ⟨-, hok⟩ | ⟨-, herr⟩
      · rw [hok] at h
        simp at h
      · rw [herr] at h
        simp at h
  · intro hbad
    unfold validate
    rw [if_pos (by exact hbad)]

/-- C6: for every input string that passes the length check, the number of
surviving hex digits is even (one of 16, 20, 28 or 36), the hex-to-bytes
decoding succeeds, and the invalid-hex failure is unreachable. -/
theorem claim6_hex_decode_total (s : List Char)
    (h : (((normalize s).length : Int) - 4) * 4 ∈ ({48, 64, 96, 128} : Set Int)) :
    (normalize s).length ∈ ({16, 20, 28, 36} : Set Nat) ∧
    (normalize s).length % 2 = 0 ∧
    (∃ code, a2b_hex (normalize s) = some code) ∧
    ∀ E : List Nat → List Nat → List Nat, decode E s ≠ .error .invalidHex := by
  have hgood : ¬badLen s := fun hbad => (badLen_iff_not_mem s).mp hbad h
  refine ⟨?_, not_badLen_even hgood, a2b_normalize_total hgood, ?_⟩
  · have := (badLen_iff s).not.mp hgood
    rwa [not_not] at this
  · intro E hcontra
    rw [decode_error_iff] at hcontra
    rcases validate_cases s with ⟨hbad, -⟩ | ⟨-, code, -, hcase⟩
    · exact absurd hbad hgood
    · rcases hcase with ⟨-, hok⟩ | ⟨-, herr⟩
      · rw [hok] at hcontra
        simp at hcontra
      · rw [herr] at hcontra
        simp at hcontra

/-- C7: the result of `decode` depends only on the case-folded subsequence
of hexadecimal digits of its input: two inputs with the same surviving hex
digits decode identically, whatever non-hex characters are interspersed
and whatever the letter case. -/
theorem claim7_hex_subsequence_determines (E : List Nat → List Nat → List Nat)
    (s1 s2 : List Char) (h : normalize s1 = normalize s2) :
    decode E s1 = decode E s2 := by
  unfold decode validate
  rw [h]

/-- C8: for every accepted input, the padded message handed to the
compression loop has a length that is an exact multiple of 16 bytes, so
every slice consumed by the loop is a full 16-byte block. -/
theorem claim8_blocks_full (s : List Char) (code : List Nat)
    (h : validate s = .ok code) :
    (paddedMessage code).length % 16 = 0 ∧
    ∀ b ∈ chunks16 (paddedMessage code), b.length = 16 :=
  ⟨paddedMessage_length_mod code, chunks16_mem_length _ (paddedMessage_length_mod code)⟩

/-- C9: every entry of the 256-entry CRC lookup table equals the value
obtained bit-by-bit from the generating polynomial `0x8408` (start with
the index and do eight conditional shift-XOR steps), and consequently the
table-driven running CRC over any byte sequence equals the bit-by-bit
running CRC. -/
theorem claim9_table_matches_polynomial :
    (∀ i : Nat, i < 256 → crc_table.getD i 0 = crcEntry i) ∧
    ∀ bs : List Nat, (∀ b ∈ bs, b < 256) → crcRun bs = crcRunBits bs :=
  ⟨fun _ hi => crc_table_getD hi, crcRun_eq_crcRunBits⟩

/-- C10: for every input string and any cipher that maps 16-byte keys and
blocks to 16-byte blocks, `decode` either fails with the invalid-length
error, or fails with a checksum-mismatch error, or returns a complete
16-byte key; in the success case the guarded hash stage raises no error. -/
theorem claim10_classified_or_key (E : List Nat → List Nat → List Nat) (s : List Char)
    (hE : ∀ k m, k.length = 16 → m.length = 16 → (E k m).length = 16) :
    decode E s = .error .invalidLength ∨
    (∃ g c, decode E s = .error (.checksumMismatch g c)) ∨
    (∃ code key, validate s = .ok code ∧
      hashLoopSafe E (List.replicate 16 0) (paddedMessage code) = some key ∧
      decode E s = .ok key ∧ key.length = 16) := by
  rcases validate_cases s with ⟨-, herr⟩ | ⟨-, code, -, hcase⟩
  · exact Or.inl ((decode_error_iff E s _).mpr herr)
  · rcases hcase with ⟨-, hok⟩ | ⟨-, herr⟩
    · refine Or.inr (Or.inr ⟨code, hashLoop E (List.replicate 16 0) (paddedMessage code),
        hok, ?_, decode_ok_of_validate E hok, ?_⟩)
      · exact hashLoopSafe_eq_hashLoop E hE _ _ (by simp) (paddedMessage_length_mod code)
      · rw [hashLoop_length]
        simp
    · exact Or.inr (Or.inl ⟨_, _, (decode_error_iff E s _).mpr herr⟩)

/-! ## Witnesses: the claim theorems applied at concrete inputs -/

/-- An installation code with the same surviving hex digits as
`validCode48`, but interspersed separators and lower-case letters. -/
def messyCode48 : List Char :=
  ['0', '0', '-', '0', '0', ' ', '0', '0', ':', '0', '0', 'x', '0', '0', ',', '0', '0',
   '8', 'f', 'f', '7']

/-- Witness for C1 (amended) at the accepted code `validCode48`. -/
theorem claim1_amended_padding_witness :
    decode idCipher validCode48 =
      .ok (hashLoop idCipher (List.replicate 16 0) (paddedMessage validBytes48)) ∧
    paddedMessage validBytes48 =
      (validBytes48.take (validBytes48.length - 2) ++
        validBytes48.drop (validBytes48.length - 2)) ++
        0x80 :: List.replicate (padZeros validBytes48.length) 0 ++
        packBE16 (((validBytes48.take (validBytes48.length - 2)).length + 2) * 8) ∧
    ((validBytes48.take (validBytes48.length - 2)).length + 2) * 8 ∈
      ({64, 80, 112, 144} : Set Nat) :=
  claim1_amended_padding idCipher validCode48 validBytes48 rfl

/-- Witness for C2 at the accepted code `validCode48`. -/
theorem claim2_full_digest_hashed_witness :
    ∃ secret chk : List Nat, validBytes48 = secret ++ chk ∧ chk.length = 2 ∧
      secret.length ∈ ({6, 8, 12, 16} : Set Nat) ∧
      decode idCipher validCode48 = .ok (hashLoop idCipher (List.replicate 16 0)
        (secret ++ chk ++ 0x80 :: List.replicate (padZeros (secret.length + 2)) 0 ++
          packBE16 ((secret.length + 2) * 8))) :=
  claim2_full_digest_hashed idCipher validCode48 validBytes48 rfl

/-- Witness for C3 at the accepted code `validCode48`. -/
theorem claim3_checksum_rule_witness :
    calcCrcBytes (validBytes48.take (validBytes48.length - 2)) =
      packLE16 ((validBytes48.take (validBytes48.length - 2)).foldl
        (fun crc b => crc_table.getD (b ^^^ (crc &&& 0xFF)) 0 ^^^ (crc >>> 8))
        0xFFFF ^^^ 0xFFFF) ∧
    ((∃ g c, validate validCode48 = .error (.checksumMismatch g c)) ↔
      validBytes48.drop (validBytes48.length - 2) ≠
        calcCrcBytes (validBytes48.take (validBytes48.length - 2))) ∧
    (validBytes48.drop (validBytes48.length - 2) =
        calcCrcBytes (validBytes48.take (validBytes48.length - 2)) →
      validate validCode48 = .ok validBytes48) :=
  claim3_checksum_rule validCode48 validBytes48 rfl (by decide)

/-- Witness for C4 at the accepted code `validCode48` with the identity
stand-in cipher. -/
theorem claim4_mmo_construction_witness :
    decode idCipher validCode48 = .ok (mmoHash idCipher (paddedMessage validBytes48)) :=
  claim4_mmo_construction idCipher (fun _ _ _ hm => hm) validCode48 validBytes48 rfl

/-- Witness for C6 at `validCode48`, which passes the length check. -/
theorem claim6_hex_decode_total_witness :
    (normalize validCode48).length ∈ ({16, 20, 28, 36} : Set Nat) ∧
    (normalize validCode48).length % 2 = 0 ∧
    (∃ code, a2b_hex (normalize validCode48) = some code) ∧
    ∀ E : List Nat → List Nat → List Nat, decode E validCode48 ≠ .error .invalidHex :=
  claim6_hex_decode_total validCode48 (by
    have h16 : (normalize validCode48).length = 16 := by decide
    rw [h16]
    norm_num [Set.mem_insert_iff])

/-- Witness for C7: the separator-ridden, lower-case `messyCode48` decodes
exactly like `validCode48`. -/
theorem claim7_hex_subsequence_determines_witness :
    decode idCipher messyCode48 = decode idCipher validCode48 :=
  claim7_hex_subsequence_determines idCipher messyCode48 validCode48 (by decide)

/-- Witness for C8 at the accepted code `validCode48`. -/
theorem claim8_blocks_full_witness :
    (paddedMessage validBytes48).length % 16 = 0 ∧
    ∀ b ∈ chunks16 (paddedMessage validBytes48), b.length = 16 :=
  claim8_blocks_full validCode48 validBytes48 rfl

/-- Witness for C9: a concrete table entry and a concrete byte string. -/
theorem claim9_table_matches_polynomial_witness :
    crc_table.getD 37 0 = crcEntry 37 ∧ crcRun [18, 171] = crcRunBits [18, 171] :=
  ⟨claim9_table_matches_polynomial.1 37 (by norm_num),
   claim9_table_matches_polynomial.2 [18, 171] (by decide)⟩

/-- Witness for C10 at `validCode48` with the identity stand-in cipher. -/
theorem claim10_classified_or_key_witness :
    decode idCipher validCode48 = .error .invalidLength ∨
    (∃ g c, decode idCipher validCode48 = .error (.checksumMismatch g c)) ∨
    (∃ code key, validate validCode48 = .ok code ∧
      hashLoopSafe idCipher (List.replicate 16 0) (paddedMessage code) = some key ∧
      decode idCipher validCode48 = .ok key ∧ key.length = 16) :=
  claim10_classified_or_key idCipher validCode48 (fun _ _ _ hm => hm)

end InstallCode
